import Mathlib

/-!
Verification of the BirdLense motion-triggered recording and detection
pipeline against its specification.

The repository excerpt contains the README, the React UI (settings form,
type declarations) and the UI api client.  The processor pipeline itself
(Trigger Controller, Session Manager, Detection Stage Chain, Rate Limiter,
Visit Aggregator) is described by the specification but its Python source
is not part of the excerpt, so those components are modelled from the
spec's words; `fetchCoordinatesByZip` is translated directly from
`src/app/ui/src/api/api.tsx`.
-/

namespace BirdLense

/-! ### ZIP-code geocoding (src/app/ui/src/api/api.tsx, fetchCoordinatesByZip) -/

/-- One element of the nominatim geocoding response; only the `lat` and
`lon` fields are read by the code. -/
structure GeoResult where
  lat : String
  lon : String
deriving DecidableEq, Repr

/-- Translated from `fetchCoordinatesByZip` in `src/app/ui/src/api/api.tsx`
(lines 120-148), real-API branch (`useMockData` is the constant `false`):
`if (data && data.length > 0)` return `{lat: data[0].lat, lon: data[0].lon}`,
else throw `Error('Invalid ZIP code or no data found.')`.  An absent/null
response body is `none`; a JSON array is `some` of a list. -/
def fetchCoordinatesByZip (data : Option (List GeoResult)) :
    Except String (String × String) :=
  match data with
  | some (first :: _) => .ok (first.lat, first.lon)
  | some [] => .error "Invalid ZIP code or no data found."
  | none => .error "Invalid ZIP code or no data found."

/-! ### Trigger Controller -/

/-- Decision returned by the Trigger Controller `evaluate` contract. -/
inductive Decision where
  | start
  | cont
  | stop
  | noneD
deriving DecidableEq, Repr

/-- Modelled from the spec: the processor's Trigger Controller is not in the
repository excerpt.  In motion-sensor mode `evaluate` holds only the
previous `active` value and fires `start` on a rising edge; it never issues
`stop`. -/
def motionEvaluate (prev active : Bool) : Decision × Bool :=
  (if active && !prev then Decision.start else Decision.noneD, active)

/-- Modelled from the spec: runs the motion-sensor-mode Trigger Controller
over a sequence of motion-signal samples, threading the edge-detection
state. -/
def runMotion (prev : Bool) : List Bool → List Decision
  | [] => []
  | a :: rest =>
    (motionEvaluate prev a).1 :: runMotion (motionEvaluate prev a).2 rest

/-- Modelled from the spec: in continuous mode the Trigger Controller
issues `start` once at process start and never `stop`; its state records
whether the single `start` was already issued. -/
def continuousEvaluate (started : Bool) : Decision × Bool :=
  (if started then Decision.noneD else Decision.start, true)

/-- Modelled from the spec: runs the continuous-mode Trigger Controller for
a number of ticks from process start. -/
def runContinuous (started : Bool) : Nat → List Decision
  | 0 => []
  | n + 1 =>
    (continuousEvaluate started).1 ::
      runContinuous (continuousEvaluate started).2 n

/-! ### Species classification results and max-confidence merging -/

/-- A species classifier output for one frame crop. -/
structure ClassifierResult where
  speciesId : Nat
  confidence : ℚ
deriving DecidableEq, Repr

/-- Modelled from the spec: the stage chain is not in the repository
excerpt.  A classifier result is merged into the Track's current best
`(species_id, confidence)` using max-confidence-wins across the track's
lifetime, not per-frame overwrite. -/
def mergeResult (best : Option ClassifierResult) (r : ClassifierResult) :
    Option ClassifierResult :=
  match best with
  | none => some r
  | some b => if b.confidence < r.confidence then some r else some b

/-- Modelled from the spec: the Track's final best result after merging a
lifetime of classifier results, starting from no result. -/
def trackBest (rs : List ClassifierResult) : Option ClassifierResult :=
  rs.foldl mergeResult none

/-! ### LLM verification step -/

/-- Outcome of an LLM verifier call: it confirms, overrides, or rejects the
classifier's species guess. -/
inductive VerifierOutcome where
  | confirm
  | override (speciesId : Nat) (confidence : ℚ)
  | reject
deriving DecidableEq, Repr

/-- Modelled from the spec: how a verifier outcome is applied to the
classifier result.  `confirm` keeps the classifier result; `override`
replaces it; the spec leaves `reject` handling abstract, so the classifier
result is retained. -/
def applyOutcome : VerifierOutcome → ClassifierResult → ClassifierResult
  | .confirm, r => r
  | .override s c, _ => ⟨s, c⟩
  | .reject, r => r

/-- Modelled from the spec: stage 5 of the Detection Stage Chain.  The LLM
verifier is invoked only when the classifier confidence is below
`minConfidence` AND the Rate Limiter grants a token; a denial
(`granted = false`) or an errored/timed-out call (`call = none`) falls back
to the classifier's own result unmodified. -/
def verifyStep (minConfidence : ℚ) (granted : Bool)
    (call : Option VerifierOutcome) (r : ClassifierResult) :
    ClassifierResult :=
  if r.confidence < minConfidence then
    if granted then
      match call with
      | some o => applyOutcome o r
      | none => r
    else r
  else r

/-! ### Rate Limiter -/

/-- Rate-limiter caps, from `Settings.ai.llm_verification`
(`max_calls_per_hour`, `max_calls_per_day`). -/
structure LimiterConfig where
  maxCallsPerHour : Nat
  maxCallsPerDay : Nat
deriving DecidableEq, Repr

/-- Modelled from the spec: `RateLimiterState` with remaining hourly/daily
counts and the wall-clock window each count belongs to (hour index
`now / 3600`, day index `now / 86400`, times in seconds). -/
structure RateLimiterState where
  hourRemaining : Nat
  dayRemaining : Nat
  hourWindowStart : Nat
  dayWindowStart : Nat
deriving DecidableEq, Repr

/-- Modelled from the spec: the Rate Limiter implementation is not in the
repository excerpt.  Windows roll over on wall-clock hour/day boundaries,
resetting the respective counter to its configured cap. -/
def rollover (cfg : LimiterConfig) (now : Nat) (st : RateLimiterState) :
    RateLimiterState :=
  { hourRemaining :=
      if now / 3600 = st.hourWindowStart then st.hourRemaining
      else cfg.maxCallsPerHour
    dayRemaining :=
      if now / 86400 = st.dayWindowStart then st.dayRemaining
      else cfg.maxCallsPerDay
    hourWindowStart := now / 3600
    dayWindowStart := now / 86400 }

/-- Modelled from the spec: `acquire() -> granted`.  After rolling the
windows over, a request is granted only if both the hourly and daily
remaining counts are positive, and granting decrements both counters
atomically. -/
def acquire (cfg : LimiterConfig) (now : Nat) (st : RateLimiterState) :
    RateLimiterState × Bool :=
  let st' := rollover cfg now st
  if 0 < st'.hourRemaining ∧ 0 < st'.dayRemaining then
    ({ st' with hourRemaining := st'.hourRemaining - 1,
                dayRemaining := st'.dayRemaining - 1 }, true)
  else (st', false)

/-- The limiter's initial state: both counters at their caps. -/
def initLimiter (cfg : LimiterConfig) : RateLimiterState :=
  ⟨cfg.maxCallsPerHour, cfg.maxCallsPerDay, 0, 0⟩

/-- Modelled from the spec: runs `acquire` over a sequence of call
timestamps, returning the final state and the timestamps of the granted
calls. -/
def runLimiter (cfg : LimiterConfig) (st : RateLimiterState) :
    List Nat → RateLimiterState × List Nat
  | [] => (st, [])
  | t :: ts =>
    let a := acquire cfg t st
    let rest := runLimiter cfg a.1 ts
    (rest.1, (if a.2 then [t] else []) ++ rest.2)

/-- Number of granted timestamps falling in the wall-clock window of width
`w` with index `idx` (the half-open interval `[idx*w, (idx+1)*w)`). -/
def grantsInWindow (w idx : Nat) (gs : List Nat) : Nat :=
  gs.countP (fun t => decide (t / w = idx))

/-- The rolling-window property claimed in the spec: in every interval
`[t0, t0 + w)` — wherever placed — at most `cap` grants occur. -/
def rollingWindowBound (w cap : Nat) (gs : List Nat) : Prop :=
  ∀ t0, gs.countP (fun t => decide (t0 ≤ t ∧ t < t0 + w)) ≤ cap

/-! ### Session Manager state machine -/

/-- Lifecycle phase of one Session instance.  The manager itself is IDLE
exactly when every session it ever created is `closed`. -/
inductive Phase where
  | active
  | finalizing
  | closed
deriving DecidableEq, Repr

/-- Modelled from the spec: the Session record owned by the Session
Manager, which is not in the repository excerpt.  `lastFrameTime` is the
timestamp of the last contributing frame admitted to the stage chain
(initially the session's start time), used as the Visit's `end_time`. -/
structure SessionRec where
  startTime : Nat
  lastActiveTime : Nat
  lastFrameTime : Nat
  phase : Phase
deriving DecidableEq, Repr

/-- Configuration consumed by the Session Manager. -/
structure SMConfig where
  maxRecordSeconds : Nat
  maxInactiveSeconds : Nat
deriving DecidableEq, Repr

/-- Events driving the Session Manager: a `start` decision from the
Trigger Controller, a captured frame carrying the stage chain's binary
detection outcome (`present`), and completion of the FINALIZING drain. -/
inductive SMEvent where
  | startDec (t : Nat)
  | frame (t : Nat) (present : Bool)
  | drained
deriving DecidableEq, Repr

/-- The finalized Visit record, per the data model: time bounds copied
from the Session at finalization. -/
structure Visit where
  startTime : Nat
  endTime : Nat
deriving DecidableEq, Repr

/-- Modelled from the spec: how one Session reacts to an event.  While
`active`, a new frame first checks the two exit conditions (hard duration
cap, then inactivity) and on either transitions to `finalizing`; otherwise
the frame is admitted, refreshing `lastActiveTime` exactly when the frame
had a positive detection.  `drained` completes FINALIZING into `closed`;
`closed` is terminal; a `start` decision never changes an existing
session. -/
def sessionStep (cfg : SMConfig) (e : SMEvent) (s : SessionRec) :
    SessionRec :=
  match e with
  | .startDec _ => s
  | .frame t present =>
    if s.phase = .active then
      if cfg.maxRecordSeconds ≤ t - s.startTime ∨
          cfg.maxInactiveSeconds ≤ t - s.lastActiveTime then
        { s with phase := .finalizing }
      else
        { s with lastActiveTime := if present then t else s.lastActiveTime,
                 lastFrameTime := max s.lastFrameTime t }
    else s
  | .drained =>
    if s.phase = .finalizing then { s with phase := .closed } else s

/-- The Visit produced when a Session is finalized. -/
def visitOf (s : SessionRec) : Visit :=
  ⟨s.startTime, s.lastFrameTime⟩

/-- Modelled from the spec: the Session Manager's state is the history of
Session instances it created, in creation order. -/
structure SMState where
  sessions : List SessionRec
deriving DecidableEq, Repr

/-- The manager is IDLE exactly when every session instance is closed. -/
def allClosed (st : SMState) : Bool :=
  st.sessions.all (fun s => s.phase == Phase.closed)

/-- Modelled from the spec: one Session Manager step.  A `start` decision
creates a new Session (with `start_time = last_active_time = now`) only
when the manager is IDLE, and is ignored otherwise; frames are routed to
the sessions (only an `active` one reacts); a completed drain closes the
finalizing session and emits exactly one Visit for it. -/
def smStep (cfg : SMConfig) (st : SMState) (e : SMEvent) :
    SMState × List Visit :=
  match e with
  | .startDec t =>
    if allClosed st then
      (⟨st.sessions ++ [⟨t, t, t, .active⟩]⟩, [])
    else (st, [])
  | .frame _ _ => (⟨st.sessions.map (sessionStep cfg e)⟩, [])
  | .drained =>
    (⟨st.sessions.map (sessionStep cfg e)⟩,
     (st.sessions.filter (fun s => s.phase == Phase.finalizing)).map visitOf)

/-- Modelled from the spec: runs the Session Manager over an event trace,
collecting all emitted Visits. -/
def smRun (cfg : SMConfig) (st : SMState) : List SMEvent → SMState × List Visit
  | [] => (st, [])
  | e :: es =>
    let st' := smStep cfg st e
    let rest := smRun cfg st'.1 es
    (rest.1, st'.2 ++ rest.2)

/-- The Session Manager's initial state: no sessions ever created. -/
def initSM : SMState := ⟨[]⟩

/-- Number of `active` sessions in a manager state. -/
def activeCount (st : SMState) : Nat :=
  st.sessions.countP (fun s => s.phase == Phase.active)

/-- Number of `closed` sessions in a manager state. -/
def closedCount (st : SMState) : Nat :=
  st.sessions.countP (fun s => s.phase == Phase.closed)

/-- Time-bound invariant a Session record keeps throughout its life: its
last contributing frame is no earlier than its start, and no later than
the hard duration cap allows. -/
def sessionBounded (cfg : SMConfig) (s : SessionRec) : Prop :=
  s.startTime ≤ s.lastFrameTime ∧
    s.lastFrameTime - s.startTime ≤ cfg.maxRecordSeconds

/-- Scenario B event trace: a `start` decision at t=0 followed by frames
with continuous positive detections at t=1..n. -/
def scenarioBEvents (n : Nat) : List SMEvent :=
  SMEvent.startDec 0 :: (List.range n).map (fun i => SMEvent.frame (i + 1) true)

/-- Scenario A event trace: a `start` at t=0, frames with positive
detections at t=2 and t=4, then frames with no detection every two
seconds. -/
def scenarioAEvents : List SMEvent :=
  [.startDec 0, .frame 2 true, .frame 4 true, .frame 6 false,
   .frame 8 false, .frame 10 false, .frame 12 false]


/-! ### Visit Aggregator -/

/-- The origin of a Detection: the video stage chain or the audio
pipeline. -/
inductive Source where
  | video
  | audio
deriving DecidableEq, Repr

/-- A Detection as merged into the Visit: `source` tag is preserved from
its producer. -/
structure Detection where
  source : Source
  speciesId : Nat
  confidence : ℚ
deriving DecidableEq, Repr

/-- The active time range of a Track's bbox sequence (first and last bbox
timestamps). -/
structure TrackRange where
  tstart : Nat
  tend : Nat
deriving DecidableEq, Repr

/-- Whether a Track's bbox-sequence time range contains the instant `t`. -/
def containsAt (r : TrackRange) (t : Nat) : Bool :=
  decide (r.tstart ≤ t ∧ t ≤ r.tend)

/-- Number of Tracks whose time ranges contain the instant `t`. -/
def countActiveAt (tracks : List TrackRange) (t : Nat) : Nat :=
  tracks.countP (fun r => containsAt r t)

/-- Modelled from the spec: the Visit Aggregator is not in the repository
excerpt.  `max_simultaneous_tracks` is the maximum count of Tracks with
overlapping active time ranges at any instant; the maximum over all
instants is attained at some track's start, so it is computed there. -/
def maxSimultaneousTracks (tracks : List TrackRange) : Nat :=
  (tracks.map (fun r => countActiveAt tracks r.tstart)).foldr max 0

/-- The aggregated Visit record (`SpeciesVisit` fields `start_time`,
`end_time`, `max_simultaneous`, `detections` in the UI types). -/
structure AggVisit where
  startTime : Nat
  endTime : Nat
  maxSimultaneous : Nat
  detections : List Detection
deriving DecidableEq, Repr

/-- Modelled from the spec: at FINALIZING the aggregator merges each
Track's best-species Detection and all audio Detections (preserving
`source` tags), computes `max_simultaneous_tracks`, and sets `end_time` to
the later of the last contributing Frame timestamp and the last
contributing AudioChunk timestamp. -/
def aggregateVisit (startTime lastFrameTime lastAudioTime : Nat)
    (tracks : List (TrackRange × Detection)) (audioDets : List Detection) :
    AggVisit :=
  { startTime := startTime
    endTime := max lastFrameTime lastAudioTime
    maxSimultaneous := maxSimultaneousTracks (tracks.map Prod.fst)
    detections := tracks.map Prod.snd ++ audioDets }

end BirdLense

namespace BirdLense

/-! ### Theorems: C10, C5, C8, C4 -/

/-- C10: `fetchCoordinatesByZip` returns the `lat`/`lon` of the first
element of the geocoding response when it is a non-empty list, throws
`Error('Invalid ZIP code or no data found.')` whenever the response is
empty or absent, and never returns a pair not taken from the first
result. -/
theorem fetchCoordinatesByZip_spec :
    (∀ data p, fetchCoordinatesByZip data = .ok p →
      ∃ first rest, data = some (first :: rest) ∧ p = (first.lat, first.lon)) ∧
    fetchCoordinatesByZip none = .error "Invalid ZIP code or no data found." ∧
    fetchCoordinatesByZip (some []) =
      .error "Invalid ZIP code or no data found." ∧
    (∀ first rest, fetchCoordinatesByZip (some (first :: rest)) =
      .ok (first.lat, first.lon)) := by
  refine ⟨?_, rfl, rfl, fun _ _ => rfl⟩
  intro data p h
  match data with
  | none => simp [fetchCoordinatesByZip] at h
  | some [] => simp [fetchCoordinatesByZip] at h
  | some (first :: rest) =>
    refine ⟨first, rest, rfl, ?_⟩
    simpa [fetchCoordinatesByZip] using h.symm

/-- Closed witness for `fetchCoordinatesByZip_spec`: the ok-direction at a
concrete one-element response. -/
theorem fetchCoordinatesByZip_spec_witness :
    ∃ first rest, (some [GeoResult.mk "40.7128" "-74.0060"]
        : Option (List GeoResult)) = some (first :: rest) ∧
      (("40.7128", "-74.0060") : String × String) = (first.lat, first.lon) :=
  fetchCoordinatesByZip_spec.1 (some [GeoResult.mk "40.7128" "-74.0060"])
    ("40.7128", "-74.0060") rfl

/-- C5: in motion-sensor mode the Trigger Controller returns `start`
exactly on a rising edge (previous value `false`, current value `true`) and
never returns `stop`, over any run; in continuous mode it returns `start`
exactly once at process start and never `stop`. -/
theorem triggerController_spec :
    (∀ prev active,
      (motionEvaluate prev active).1 = .start ↔ prev = false ∧ active = true) ∧
    (∀ prev sigs d, d ∈ runMotion prev sigs → d ≠ .stop) ∧
    (∀ n, 0 < n →
      (runContinuous false n).count Decision.start = 1 ∧
      (runContinuous false n).head? = some .start) ∧
    (∀ started n d, d ∈ runContinuous started n → d ≠ .stop) := by
  refine ⟨?_, ?_, ?_, ?_⟩
  · intro prev active
    cases prev <;> cases active <;> simp [motionEvaluate]
  · intro prev sigs
    induction sigs generalizing prev with
    | nil => intro d h; simp [runMotion] at h
    | cons a rest ih =>
      intro d h
      simp only [runMotion, List.mem_cons] at h
      rcases h with h | h
      · subst h
        cases prev <;> cases a <;> simp [motionEvaluate]
      · exact ih _ _ h
  · intro n hn
    match n, hn with
    | n + 1, _ =>
      constructor
      · have aux : ∀ m, (runContinuous true m).count Decision.start = 0 := by
          intro m
          induction m with
          | zero => simp [runContinuous]
          | succ k ih => simp [runContinuous, continuousEvaluate, List.count_cons, ih]
        simp [runContinuous, continuousEvaluate, List.count_cons, aux]
      · simp [runContinuous, continuousEvaluate]
  · intro started n
    induction n generalizing started with
    | zero => intro d h; simp [runContinuous] at h
    | succ k ih =>
      intro d h
      simp only [runContinuous, List.mem_cons] at h
      rcases h with h | h
      · subst h
        cases started <;> simp [continuousEvaluate]
      · exact ih _ _ h

/-- Closed witness for `triggerController_spec`: at concrete inputs, a
rising edge yields `start`, a three-sample run contains no `stop`, and a
two-tick continuous run starts exactly once. -/
theorem triggerController_spec_witness :
    ((motionEvaluate false true).1 = .start ↔ false = false ∧ true = true) ∧
    (Decision.noneD ≠ Decision.stop) ∧
    ((runContinuous false 2).count Decision.start = 1 ∧
      (runContinuous false 2).head? = some .start) :=
  ⟨triggerController_spec.1 false true,
   triggerController_spec.2.1 false [false, true, true] Decision.noneD
     (by decide),
   triggerController_spec.2.2.1 2 (by decide)⟩

/-- Helper for C8: folding `mergeResult` from an existing best result
yields a result drawn from the inputs whose confidence dominates the
starting best and every merged result. -/
theorem foldl_mergeResult_max (rs : List ClassifierResult)
    (acc : ClassifierResult) :
    ∃ b, rs.foldl mergeResult (some acc) = some b ∧
      (b = acc ∨ b ∈ rs) ∧ acc.confidence ≤ b.confidence ∧
      ∀ x ∈ rs, x.confidence ≤ b.confidence := by
  induction rs generalizing acc with
  | nil => exact ⟨acc, rfl, Or.inl rfl, le_refl _, by simp⟩
  | cons r rest ih =>
    by_cases hlt : acc.confidence < r.confidence
    · obtain ⟨b, hb, hmem, hge, hall⟩ := ih r
      refine ⟨b, ?_, ?_, le_of_lt (lt_of_lt_of_le hlt hge), ?_⟩
      · simpa [mergeResult, hlt] using hb
      · rcases hmem with h | h
        · exact Or.inr (by simp [h])
        · exact Or.inr (List.mem_cons_of_mem _ h)
      · intro x hx
        rcases List.mem_cons.mp hx with h | h
        · exact h ▸ hge
        · exact hall x h
    · obtain ⟨b, hb, hmem, hge, hall⟩ := ih acc
      refine ⟨b, ?_, Or.imp id (List.mem_cons_of_mem r) hmem, hge, ?_⟩
      · simpa [mergeResult, hlt] using hb
      · intro x hx
        rcases List.mem_cons.mp hx with h | h
        · exact h ▸ le_trans (le_of_not_lt hlt) hge
        · exact hall x h

/-- C8: the Track's final `(species_id, confidence)` is a classifier result
from the track's lifetime with the maximum confidence (max-confidence-wins,
not last-write-wins); a merge never decreases the stored confidence; and a
track with at least one classifier result is still reported (never
discarded) whatever its confidence. -/
theorem trackBest_spec :
    (∀ rs : List ClassifierResult, rs ≠ [] →
      ∃ b, trackBest rs = some b ∧ b ∈ rs ∧
        ∀ x ∈ rs, x.confidence ≤ b.confidence) ∧
    (∀ (b r b' : ClassifierResult), mergeResult (some b) r = some b' →
      b.confidence ≤ b'.confidence) := by
  constructor
  · intro rs hne
    match rs, hne with
    | r :: rest, _ =>
      obtain ⟨b, hb, hmem, hge, hall⟩ := foldl_mergeResult_max rest r
      refine ⟨b, ?_, ?_, ?_⟩
      · simpa [trackBest, mergeResult] using hb
      · rcases hmem with h | h
        · exact h ▸ List.mem_cons_self _ _
        · exact List.mem_cons_of_mem _ h
      · intro x hx
        rcases List.mem_cons.mp hx with h | h
        · exact h ▸ hge
        · exact hall x h
  · intro b r b' h
    by_cases hlt : b.confidence < r.confidence
    · simp only [mergeResult, if_pos hlt, Option.some.injEq] at h
      exact h ▸ le_of_lt hlt
    · simp only [mergeResult, if_neg hlt, Option.some.injEq] at h
      exact h ▸ le_refl _

/-- Closed witness for `trackBest_spec`: a concrete two-result track whose
best is the higher-confidence result, and a concrete non-decreasing
merge. -/
theorem trackBest_spec_witness :
    (∃ b, trackBest [⟨3, 1/4⟩, ⟨5, 3/4⟩] = some b ∧
        b ∈ [ClassifierResult.mk 3 (1/4), ClassifierResult.mk 5 (3/4)] ∧
        ∀ x ∈ [ClassifierResult.mk 3 (1/4), ClassifierResult.mk 5 (3/4)],
          x.confidence ≤ b.confidence) ∧
    (ClassifierResult.mk 3 (1/4)).confidence ≤
      (ClassifierResult.mk 5 (3/4)).confidence :=
  ⟨trackBest_spec.1 [⟨3, 1/4⟩, ⟨5, 3/4⟩] (by simp),
   trackBest_spec.2 ⟨3, 1/4⟩ ⟨5, 3/4⟩ ⟨5, 3/4⟩ (by norm_num [mergeResult])⟩

/-- C4: whenever the classifier confidence is below `min_confidence` and
either the Rate Limiter denies the token or the verifier call errors/times
out, the species result is exactly the classifier's own output, unmodified;
in particular with confidence 0.4, threshold 0.6 and a rate-limit denial. -/
theorem verifyStep_fallback_spec :
    (∀ (mc : ℚ) (granted : Bool) (call : Option VerifierOutcome)
      (r : ClassifierResult), r.confidence < mc →
      granted = false ∨ call = none →
      verifyStep mc granted call r = r) ∧
    verifyStep (6/10) false none ⟨7, 4/10⟩ = ⟨7, 4/10⟩ := by
  constructor
  · intro mc granted call r hconf hfail
    rcases hfail with h | h
    · subst h
      simp [verifyStep, hconf]
    · subst h
      cases granted <;> simp [verifyStep, hconf]
  · norm_num [verifyStep]

/-- Closed witness for `verifyStep_fallback_spec`: the fallback law applied
at the Scenario C input (confidence 0.4, threshold 0.6, denial). -/
theorem verifyStep_fallback_spec_witness :
    verifyStep (6/10) false none ⟨7, 4/10⟩ = ⟨7, 4/10⟩ :=
  verifyStep_fallback_spec.1 (6/10) false none ⟨7, 4/10⟩ (by norm_num)
    (Or.inl rfl)

/-! ### Session Manager invariants -/

/-- `sessionStep` preserves the time-bound invariant: a frame is admitted
only while the hard cap has not been reached. -/
theorem sessionStep_bounded (cfg : SMConfig) (e : SMEvent) (s : SessionRec)
    (h : sessionBounded cfg s) : sessionBounded cfg (sessionStep cfg e s) := by
  obtain ⟨h1, h2⟩ := h
  cases e with
  | startDec t => exact ⟨h1, h2⟩
  | drained =>
    simp only [sessionStep]
    split <;> exact ⟨h1, h2⟩
  | frame t present =>
    simp only [sessionStep]
    split
    · split
      · exact ⟨h1, h2⟩
      · rename_i hguard
        push_neg at hguard
        refine ⟨le_trans h1 (le_max_left _ _), ?_⟩
        rcases Nat.le_total s.lastFrameTime t with hle | hle
        · simp only [Nat.max_eq_right hle]
          omega
        · simp only [Nat.max_eq_left hle]
          exact h2
    · exact ⟨h1, h2⟩

/-- Running the Session Manager preserves the time-bound invariant on all
sessions and every emitted Visit satisfies the bounds. -/
theorem smRun_bounded (cfg : SMConfig) (es : List SMEvent) (st : SMState)
    (h : ∀ s ∈ st.sessions, sessionBounded cfg s) :
    (∀ s ∈ (smRun cfg st es).1.sessions, sessionBounded cfg s) ∧
    ∀ v ∈ (smRun cfg st es).2,
      v.startTime ≤ v.endTime ∧ v.endTime - v.startTime ≤ cfg.maxRecordSeconds := by
  induction es generalizing st with
  | nil => exact ⟨h, by simp [smRun]⟩
  | cons e es ih =>
    have hstep : ∀ s ∈ (smStep cfg st e).1.sessions, sessionBounded cfg s := by
      cases e with
      | startDec t =>
        simp only [smStep]
        split
        · intro s hs
          rcases List.mem_append.mp hs with hs | hs
          · exact h s hs
          · simp only [List.mem_singleton] at hs
            subst hs
            exact ⟨le_refl _, by simp⟩
        · exact h
      | frame t present =>
        intro s hs
        simp only [smStep, List.mem_map] at hs
        obtain ⟨s0, hs0, rfl⟩ := hs
        exact sessionStep_bounded cfg _ s0 (h s0 hs0)
      | drained =>
        intro s hs
        simp only [smStep, List.mem_map] at hs
        obtain ⟨s0, hs0, rfl⟩ := hs
        exact sessionStep_bounded cfg _ s0 (h s0 hs0)
    have hvis : ∀ v ∈ (smStep cfg st e).2,
        v.startTime ≤ v.endTime ∧
          v.endTime - v.startTime ≤ cfg.maxRecordSeconds := by
      cases e with
      | startDec t =>
        simp only [smStep]
        split <;> simp
      | frame t present => simp [smStep]
      | drained =>
        intro v hv
        simp only [smStep, List.mem_map] at hv
        obtain ⟨s0, hs0, rfl⟩ := hv
        have := h s0 (List.mem_of_mem_filter hs0)
        exact ⟨this.1, this.2⟩
    obtain ⟨hst', hvs'⟩ := ih (smStep cfg st e).1 hstep
    refine ⟨hst', ?_⟩
    intro v hv
    simp only [smRun, List.mem_append] at hv
    rcases hv with hv | hv
    · exact hvis v hv
    · exact hvs' v hv

set_option maxRecDepth 8000 in
/-- C1: every finalized Session's Visit satisfies `end_time >= start_time`
and `end_time - start_time <= max_record_seconds`; and with
`max_record_seconds = 30` and continuous positive detections for 35
seconds, the Session is still active after the t=29 frame, forcibly enters
FINALIZING at the t=30 frame regardless of ongoing activity, and yields
exactly one Visit. -/
theorem sessionHardCap_spec :
    (∀ (cfg : SMConfig) (es : List SMEvent) (v : Visit),
      v ∈ (smRun cfg initSM es).2 →
      v.startTime ≤ v.endTime ∧
        v.endTime - v.startTime ≤ cfg.maxRecordSeconds) ∧
    (smRun ⟨30, 10⟩ initSM (scenarioBEvents 29)).1 =
      ⟨[⟨0, 29, 29, .active⟩]⟩ ∧
    (smRun ⟨30, 10⟩ initSM (scenarioBEvents 30)).1 =
      ⟨[⟨0, 29, 29, .finalizing⟩]⟩ ∧
    (smRun ⟨30, 10⟩ initSM (scenarioBEvents 35 ++ [SMEvent.drained])).2 =
      [⟨0, 29⟩] := by
  refine ⟨?_, by decide, by decide, by decide⟩
  intro cfg es v hv
  exact (smRun_bounded cfg es initSM (by simp [initSM])).2 v hv

set_option maxRecDepth 8000 in
/-- Closed witness for `sessionHardCap_spec`: the bound instantiated on the
Visit produced by the concrete Scenario B run. -/
theorem sessionHardCap_spec_witness :
    (Visit.mk 0 29).startTime ≤ (Visit.mk 0 29).endTime ∧
      (Visit.mk 0 29).endTime - (Visit.mk 0 29).startTime ≤
        (SMConfig.mk 30 10).maxRecordSeconds :=
  sessionHardCap_spec.1 ⟨30, 10⟩ (scenarioBEvents 35 ++ [SMEvent.drained])
    ⟨0, 29⟩ (by decide)

/-- A closed Session is terminal: no event changes it. -/
theorem sessionStep_closed_eq (cfg : SMConfig) (e : SMEvent) (s : SessionRec)
    (h : s.phase = .closed) : sessionStep cfg e s = s := by
  cases e <;> simp [sessionStep, h]

/-- A frame event never changes whether a session is closed. -/
theorem sessionStep_frame_closed_iff (cfg : SMConfig) (t : Nat)
    (present : Bool) (s : SessionRec) :
    ((sessionStep cfg (.frame t present) s).phase = Phase.closed) ↔
      s.phase = Phase.closed := by
  by_cases hp : s.phase = .active
  · simp only [sessionStep, if_pos hp]
    split <;> simp [hp]
  · simp [sessionStep, hp]

/-- Draining closes exactly the finalizing sessions: the closed count after
a drain is the closed count plus the finalizing count. -/
theorem countP_closed_map_drained (cfg : SMConfig) (l : List SessionRec) :
    l.countP (fun s => (sessionStep cfg .drained s).phase == Phase.closed) =
      l.countP (fun s => s.phase == Phase.closed) +
        l.countP (fun s => s.phase == Phase.finalizing) := by
  induction l with
  | nil => simp
  | cons s l ih =>
    rw [List.countP_cons, List.countP_cons, List.countP_cons, ih]
    cases hp : s.phase <;> simp [sessionStep, hp] <;> omega

/-- Each Session Manager step emits exactly as many Visits as sessions it
closes. -/
theorem smStep_visit_count (cfg : SMConfig) (st : SMState) (e : SMEvent) :
    (smStep cfg st e).2.length + closedCount st =
      closedCount (smStep cfg st e).1 := by
  cases e with
  | startDec t =>
    simp only [smStep]
    split
    · simp [closedCount, List.countP_append, List.countP_cons]
    · simp
  | frame t present =>
    simp only [smStep, closedCount, List.countP_map, List.length_nil,
      Nat.zero_add]
    refine (List.countP_congr ?_).symm
    intro s _
    simpa using sessionStep_frame_closed_iff cfg t present s
  | drained =>
    simp only [smStep, closedCount, List.countP_map, List.length_map]
    rw [← List.countP_eq_length_filter]
    have h : List.countP
        ((fun s => s.phase == Phase.closed) ∘ sessionStep cfg SMEvent.drained)
          st.sessions =
        List.countP (fun s => s.phase == Phase.closed) st.sessions +
          List.countP (fun s => s.phase == Phase.finalizing) st.sessions :=
      countP_closed_map_drained cfg st.sessions
    omega

/-- Over a whole run, the number of emitted Visits equals the number of
sessions that reached `closed`. -/
theorem smRun_visit_count (cfg : SMConfig) (es : List SMEvent) (st : SMState) :
    (smRun cfg st es).2.length + closedCount st =
      closedCount (smRun cfg st es).1 := by
  induction es generalizing st with
  | nil => simp [smRun]
  | cons e es ih =>
    have h1 := smStep_visit_count cfg st e
    have h2 := ih (smStep cfg st e).1
    simp only [smRun, List.length_append]
    omega

/-- C2: exactly one Visit is produced per finalized Session and a Session
finalizes at most once: the run emits one Visit per session reaching
`CLOSED`, and `CLOSED` is terminal — no event (in particular no re-entry
into `FINALIZING`) changes a closed Session. -/
theorem finalizeOnce_spec :
    (∀ (cfg : SMConfig) (e : SMEvent) (s : SessionRec),
      s.phase = .closed → sessionStep cfg e s = s) ∧
    (∀ (cfg : SMConfig) (es : List SMEvent),
      (smRun cfg initSM es).2.length =
        closedCount (smRun cfg initSM es).1) := by
  refine ⟨sessionStep_closed_eq, ?_⟩
  intro cfg es
  have h := smRun_visit_count cfg es initSM
  have h0 : closedCount initSM = 0 := rfl
  omega

/-- Closed witness for `finalizeOnce_spec`: a concrete closed session is
unchanged by a frame event. -/
theorem finalizeOnce_spec_witness :
    sessionStep ⟨30, 10⟩ (.frame 5 true) ⟨0, 0, 0, .closed⟩ =
      (⟨0, 0, 0, .closed⟩ : SessionRec) :=
  finalizeOnce_spec.1 ⟨30, 10⟩ (.frame 5 true) ⟨0, 0, 0, .closed⟩ rfl

/-- Only an `active` session can become `active` after a step: steps never
create activity. -/
theorem sessionStep_active_of (cfg : SMConfig) (e : SMEvent) (s : SessionRec)
    (h : (sessionStep cfg e s).phase = .active) : s.phase = .active := by
  by_cases hp : s.phase = .active
  · exact hp
  · exfalso
    cases hpc : s.phase with
    | active => exact hp hpc
    | finalizing =>
      cases e <;> simp [sessionStep, hpc] at h
    | closed =>
      cases e <;> simp [sessionStep, hpc] at h

/-- Each Session Manager step keeps the active-session count at most 1. -/
theorem activeCount_smStep (cfg : SMConfig) (st : SMState) (e : SMEvent)
    (h : activeCount st ≤ 1) : activeCount (smStep cfg st e).1 ≤ 1 := by
  cases e with
  | startDec t =>
    simp only [smStep]
    split
    · rename_i hall
      have hall' : ∀ x ∈ st.sessions, x.phase == Phase.closed :=
        List.all_eq_true.mp hall
      have hz : st.sessions.countP (fun s => s.phase == Phase.active) = 0 := by
        rw [List.countP_eq_zero]
        intro s hs
        have hcl := hall' s hs
        simp only [beq_iff_eq] at hcl ⊢
        simp [hcl]
      simp [activeCount, List.countP_append, List.countP_cons, hz]
    · exact h
  | frame t present =>
    refine le_trans ?_ h
    simp only [smStep, activeCount, List.countP_map]
    refine List.countP_mono_left ?_
    intro s _ hs
    simp only [Function.comp, beq_iff_eq] at hs ⊢
    exact sessionStep_active_of cfg _ s hs
  | drained =>
    refine le_trans ?_ h
    simp only [smStep, activeCount, List.countP_map]
    refine List.countP_mono_left ?_
    intro s _ hs
    simp only [Function.comp, beq_iff_eq] at hs ⊢
    exact sessionStep_active_of cfg _ s hs

/-- C6: in every reachable Session Manager state at most one Session is
ACTIVE; a `start` decision received while a Session is ACTIVE is ignored
(state unchanged, nothing emitted); and the only transition out of ACTIVE
on a frame is to FINALIZING. -/
theorem singleActiveSession_spec :
    (∀ (cfg : SMConfig) (es : List SMEvent),
      activeCount (smRun cfg initSM es).1 ≤ 1) ∧
    (∀ (cfg : SMConfig) (st : SMState) (t : Nat),
      (∃ s ∈ st.sessions, s.phase = .active) →
      smStep cfg st (.startDec t) = (st, [])) ∧
    (∀ (cfg : SMConfig) (t : Nat) (present : Bool) (s : SessionRec),
      s.phase = .active →
      (sessionStep cfg (.frame t present) s).phase = .active ∨
        (sessionStep cfg (.frame t present) s).phase = .finalizing) := by
  refine ⟨?_, ?_, ?_⟩
  · intro cfg es
    have run : ∀ st, activeCount st ≤ 1 →
        activeCount (smRun cfg st es).1 ≤ 1 := by
      induction es with
      | nil => intro st h; simpa [smRun] using h
      | cons e es ih =>
        intro st h
        exact ih _ (activeCount_smStep cfg st e h)
    exact run initSM (by simp [activeCount, initSM])
  · intro cfg st t ⟨s, hs, hactive⟩
    have hfalse : allClosed st = false := by
      rw [allClosed]
      rw [List.all_eq_false]
      exact ⟨s, hs, by simp [hactive]⟩
    simp [smStep, hfalse]
  · intro cfg t present s h
    simp only [sessionStep, if_pos h]
    split
    · exact Or.inr rfl
    · exact Or.inl h

/-- Closed witness for `singleActiveSession_spec`: a concrete `start`
decision arriving while a session is ACTIVE leaves the state unchanged. -/
theorem singleActiveSession_spec_witness :
    smStep ⟨30, 10⟩ ⟨[⟨0, 0, 0, .active⟩]⟩ (.startDec 7) =
      ((⟨[⟨0, 0, 0, .active⟩]⟩ : SMState), []) :=
  singleActiveSession_spec.2.1 ⟨30, 10⟩ ⟨[⟨0, 0, 0, .active⟩]⟩ 7
    ⟨⟨0, 0, 0, .active⟩, by simp, rfl⟩

/-- C7: while a Session is ACTIVE, an admitted frame refreshes
`last_active_time` to its timestamp exactly when its binary detection is
positive — a `present = false` frame never refreshes it; consequently with
`max_record_seconds = 30`, `max_inactive_seconds = 10`, detections at
t=0,2,4 and silence afterwards, the Session is still active after the t=12
frame and enters FINALIZING at the t=14 frame (t = 4 + 10), producing one
Visit. -/
theorem lastActiveRefresh_spec :
    (∀ (cfg : SMConfig) (s : SessionRec) (t : Nat), s.phase = .active →
      ¬(cfg.maxRecordSeconds ≤ t - s.startTime ∨
          cfg.maxInactiveSeconds ≤ t - s.lastActiveTime) →
      (sessionStep cfg (.frame t true) s).lastActiveTime = t) ∧
    (∀ (cfg : SMConfig) (s : SessionRec) (t : Nat),
      (sessionStep cfg (.frame t false) s).lastActiveTime =
        s.lastActiveTime) ∧
    (smRun ⟨30, 10⟩ initSM scenarioAEvents).1 = ⟨[⟨0, 4, 12, .active⟩]⟩ ∧
    (smRun ⟨30, 10⟩ initSM (scenarioAEvents ++ [.frame 14 false])).1 =
      ⟨[⟨0, 4, 12, .finalizing⟩]⟩ ∧
    (smRun ⟨30, 10⟩ initSM
        (scenarioAEvents ++ [.frame 14 false, .drained])).2 = [⟨0, 12⟩] := by
  refine ⟨?_, ?_, by decide, by decide, by decide⟩
  · intro cfg s t h hguard
    simp [sessionStep, h, hguard]
  · intro cfg s t
    by_cases hp : s.phase = .active
    · simp only [sessionStep, if_pos hp]
      split <;> simp
    · simp [sessionStep, hp]

/-- Closed witness for `lastActiveRefresh_spec`: a concrete positive-
detection frame refreshes `last_active_time` to its timestamp. -/
theorem lastActiveRefresh_spec_witness :
    (sessionStep ⟨30, 10⟩ (.frame 5 true)
        ⟨0, 0, 0, .active⟩).lastActiveTime = 5 :=
  lastActiveRefresh_spec.1 ⟨30, 10⟩ ⟨0, 0, 0, .active⟩ 5 rfl (by decide)

/-- An `acquire` call either grants — both rolled counters were positive
and both are decremented — or denies, leaving the rolled state
unchanged. -/
theorem acquire_cases (cfg : LimiterConfig) (now : Nat)
    (st : RateLimiterState) :
    (acquire cfg now st =
        ({ rollover cfg now st with
            hourRemaining := (rollover cfg now st).hourRemaining - 1,
            dayRemaining := (rollover cfg now st).dayRemaining - 1 }, true) ∧
      0 < (rollover cfg now st).hourRemaining ∧
      0 < (rollover cfg now st).dayRemaining) ∨
    (acquire cfg now st = (rollover cfg now st, false) ∧
      ¬(0 < (rollover cfg now st).hourRemaining ∧
        0 < (rollover cfg now st).dayRemaining)) := by
  simp only [acquire]
  split
  · exact Or.inl ⟨rfl, by assumption⟩
  · exact Or.inr ⟨rfl, by assumption⟩

/-- The hourly counter after rollover, in closed form. -/
theorem rollover_hourRemaining (cfg : LimiterConfig) (now : Nat)
    (st : RateLimiterState) :
    (rollover cfg now st).hourRemaining =
      if now / 3600 = st.hourWindowStart then st.hourRemaining
      else cfg.maxCallsPerHour := rfl

/-- The daily counter after rollover, in closed form. -/
theorem rollover_dayRemaining (cfg : LimiterConfig) (now : Nat)
    (st : RateLimiterState) :
    (rollover cfg now st).dayRemaining =
      if now / 86400 = st.dayWindowStart then st.dayRemaining
      else cfg.maxCallsPerDay := rfl

/-- Window counts are additive over list concatenation. -/
theorem grantsInWindow_append (w idx : Nat) (xs ys : List Nat) :
    grantsInWindow w idx (xs ++ ys) =
      grantsInWindow w idx xs + grantsInWindow w idx ys := by
  simp [grantsInWindow]

/-- Window count of a single timestamp. -/
theorem grantsInWindow_singleton (w idx t : Nat) :
    grantsInWindow w idx [t] = if t / w = idx then 1 else 0 := by
  simp [grantsInWindow, List.countP_cons]

/-- Main Rate Limiter invariant: over a time-ordered call trace the granted
timestamps are drawn from the trace, every wall-clock window other than the
current one holds at most the cap, and the current window holds at most the
remaining count. -/
theorem runLimiter_window_bound (cfg : LimiterConfig) (ts : List Nat)
    (st : RateLimiterState)
    (hpw : List.Pairwise (· ≤ ·) ts)
    (hH : ∀ t ∈ ts, st.hourWindowStart ≤ t / 3600)
    (hD : ∀ t ∈ ts, st.dayWindowStart ≤ t / 86400)
    (hhr : st.hourRemaining ≤ cfg.maxCallsPerHour)
    (hdr : st.dayRemaining ≤ cfg.maxCallsPerDay) :
    (∀ g ∈ (runLimiter cfg st ts).2, g ∈ ts) ∧
    (∀ idx, idx ≠ st.hourWindowStart →
      grantsInWindow 3600 idx (runLimiter cfg st ts).2 ≤
        cfg.maxCallsPerHour) ∧
    grantsInWindow 3600 st.hourWindowStart (runLimiter cfg st ts).2 ≤
      st.hourRemaining ∧
    (∀ idx, idx ≠ st.dayWindowStart →
      grantsInWindow 86400 idx (runLimiter cfg st ts).2 ≤
        cfg.maxCallsPerDay) ∧
    grantsInWindow 86400 st.dayWindowStart (runLimiter cfg st ts).2 ≤
      st.dayRemaining := by
  induction ts generalizing st with
  | nil => simp [runLimiter, grantsInWindow]
  | cons t ts ih =>
    obtain ⟨hle, hpw'⟩ := List.pairwise_cons.mp hpw
    have hHt : st.hourWindowStart ≤ t / 3600 := hH t (List.mem_cons_self _ _)
    have hDt : st.dayWindowStart ≤ t / 86400 := hD t (List.mem_cons_self _ _)
    have hws : (acquire cfg t st).1.hourWindowStart = t / 3600 := by
      rcases acquire_cases cfg t st with ⟨heq, _, _⟩ | ⟨heq, _⟩ <;>
        simp [heq, rollover]
    have hds : (acquire cfg t st).1.dayWindowStart = t / 86400 := by
      rcases acquire_cases cfg t st with ⟨heq, _, _⟩ | ⟨heq, _⟩ <;>
        simp [heq, rollover]
    have hposIf : (acquire cfg t st).2 = true →
        0 < (rollover cfg t st).hourRemaining ∧
          0 < (rollover cfg t st).dayRemaining := by
      rcases acquire_cases cfg t st with ⟨heq, hp, hq⟩ | ⟨heq, _⟩
      · exact fun _ => ⟨hp, hq⟩
      · intro hgr
        rw [heq] at hgr
        simp at hgr
    have hremH : (acquire cfg t st).1.hourRemaining =
        if (acquire cfg t st).2 = true
        then (rollover cfg t st).hourRemaining - 1
        else (rollover cfg t st).hourRemaining := by
      rcases acquire_cases cfg t st with ⟨heq, _, _⟩ | ⟨heq, _⟩ <;> simp [heq]
    have hremD : (acquire cfg t st).1.dayRemaining =
        if (acquire cfg t st).2 = true
        then (rollover cfg t st).dayRemaining - 1
        else (rollover cfg t st).dayRemaining := by
      rcases acquire_cases cfg t st with ⟨heq, _, _⟩ | ⟨heq, _⟩ <;> simp [heq]
    have hhr2 : (acquire cfg t st).1.hourRemaining ≤ cfg.maxCallsPerHour := by
      rw [hremH]
      split <;> (rw [rollover_hourRemaining]; split <;> omega)
    have hdr2 : (acquire cfg t st).1.dayRemaining ≤ cfg.maxCallsPerDay := by
      rw [hremD]
      split <;> (rw [rollover_dayRemaining]; split <;> omega)
    obtain ⟨i0, i1, i2, i3, i4⟩ := ih (acquire cfg t st).1 hpw'
      (fun x hx => by rw [hws]; exact Nat.div_le_div_right (hle x hx))
      (fun x hx => by rw [hds]; exact Nat.div_le_div_right (hle x hx))
      hhr2 hdr2
    rw [hws] at i1 i2
    rw [hds] at i3 i4
    rw [hremH] at i2
    rw [hremD] at i4
    have hgs : (runLimiter cfg st (t :: ts)).2 =
        (if (acquire cfg t st).2 then [t] else []) ++
          (runLimiter cfg (acquire cfg t st).1 ts).2 := rfl
    have hsingH : ∀ idx, grantsInWindow 3600 idx
        (if (acquire cfg t st).2 then [t] else []) =
          if (acquire cfg t st).2 = true ∧ t / 3600 = idx then 1 else 0 := by
      intro idx
      by_cases hgr : (acquire cfg t st).2 = true <;>
        simp [hgr, grantsInWindow, List.countP_cons]
    have hsingD : ∀ idx, grantsInWindow 86400 idx
        (if (acquire cfg t st).2 then [t] else []) =
          if (acquire cfg t st).2 = true ∧ t / 86400 = idx then 1 else 0 := by
      intro idx
      by_cases hgr : (acquire cfg t st).2 = true <;>
        simp [hgr, grantsInWindow, List.countP_cons]
    have hzeroH : t / 3600 ≠ st.hourWindowStart →
        grantsInWindow 3600 st.hourWindowStart
          (runLimiter cfg (acquire cfg t st).1 ts).2 = 0 := by
      intro hne
      rw [grantsInWindow, List.countP_eq_zero]
      intro g hg'
      have h1 : t ≤ g := hle g (i0 g hg')
      have h2 : t / 3600 ≤ g / 3600 := Nat.div_le_div_right h1
      simp only [decide_eq_true_eq]
      omega
    have hzeroD : t / 86400 ≠ st.dayWindowStart →
        grantsInWindow 86400 st.dayWindowStart
          (runLimiter cfg (acquire cfg t st).1 ts).2 = 0 := by
      intro hne
      rw [grantsInWindow, List.countP_eq_zero]
      intro g hg'
      have h1 : t ≤ g := hle g (i0 g hg')
      have h2 : t / 86400 ≤ g / 86400 := Nat.div_le_div_right h1
      simp only [decide_eq_true_eq]
      omega
    refine ⟨?_, ?_, ?_, ?_, ?_⟩
    · intro g hg
      rw [hgs] at hg
      rcases List.mem_append.mp hg with hg | hg
      · split at hg
        · simp only [List.mem_singleton] at hg
          exact hg ▸ List.mem_cons_self _ _
        · simp at hg
      · exact List.mem_cons_of_mem _ (i0 g hg)
    · intro idx hidx
      rw [hgs, grantsInWindow_append, hsingH idx]
      by_cases hcase : t / 3600 = idx
      · subst hcase
        have hcap : (rollover cfg t st).hourRemaining =
            cfg.maxCallsPerHour := by
          rw [rollover_hourRemaining, if_neg hidx]
        by_cases hgr : (acquire cfg t st).2 = true
        · rw [if_pos hgr] at i2
          have hpos := (hposIf hgr).1
          simp only [hgr, true_and, eq_self_iff_true, if_true]
          omega
        · rw [if_neg hgr] at i2
          simp only [hgr, Bool.false_eq_true, eq_self_iff_true, false_and, if_false]
          omega
      · have hi1 := i1 idx (fun h => hcase h.symm)
        simp only [hcase, and_false, if_false]
        omega
    · rw [hgs, grantsInWindow_append, hsingH st.hourWindowStart]
      by_cases hre : t / 3600 = st.hourWindowStart
      · have hsame : (rollover cfg t st).hourRemaining = st.hourRemaining := by
          rw [rollover_hourRemaining, if_pos hre]
        rw [← hre]
        by_cases hgr : (acquire cfg t st).2 = true
        · rw [if_pos hgr] at i2
          have hpos := (hposIf hgr).1
          simp only [hgr, true_and, eq_self_iff_true, if_true]
          omega
        · rw [if_neg hgr] at i2
          simp only [hgr, Bool.false_eq_true, eq_self_iff_true, false_and, if_false]
          omega
      · have h0 := hzeroH hre
        simp only [hre, and_false, if_false, h0]
        omega
    · intro idx hidx
      rw [hgs, grantsInWindow_append, hsingD idx]
      by_cases hcase : t / 86400 = idx
      · subst hcase
        have hcap : (rollover cfg t st).dayRemaining =
            cfg.maxCallsPerDay := by
          rw [rollover_dayRemaining, if_neg hidx]
        by_cases hgr : (acquire cfg t st).2 = true
        · rw [if_pos hgr] at i4
          have hpos := (hposIf hgr).2
          simp only [hgr, true_and, eq_self_iff_true, if_true]
          omega
        · rw [if_neg hgr] at i4
          simp only [hgr, Bool.false_eq_true, eq_self_iff_true, false_and, if_false]
          omega
      · have hi3 := i3 idx (fun h => hcase h.symm)
        simp only [hcase, and_false, if_false]
        omega
    · rw [hgs, grantsInWindow_append, hsingD st.dayWindowStart]
      by_cases hre : t / 86400 = st.dayWindowStart
      · have hsame : (rollover cfg t st).dayRemaining = st.dayRemaining := by
          rw [rollover_dayRemaining, if_pos hre]
        rw [← hre]
        by_cases hgr : (acquire cfg t st).2 = true
        · rw [if_pos hgr] at i4
          have hpos := (hposIf hgr).2
          simp only [hgr, true_and, eq_self_iff_true, if_true]
          omega
        · rw [if_neg hgr] at i4
          simp only [hgr, Bool.false_eq_true, eq_self_iff_true, false_and, if_false]
          omega
      · have h0 := hzeroD hre
        simp only [hre, and_false, if_false, h0]
        omega

/-- C3 counterexample: the rolling-window reading of the claim fails on the
wall-clock limiter.  With `max_calls_per_hour = 1`, acquires at t = 3599
and t = 3600 are both granted (they fall in different wall-clock hours), so
the one-hour interval starting at t = 3599 contains 2 > 1 grants. -/
theorem rateLimiter_rolling_counterexample :
    ¬ rollingWindowBound 3600 1
      (runLimiter ⟨1, 10⟩ (initLimiter ⟨1, 10⟩) [3599, 3600]).2 := by
  intro h
  have h2 := h 3599
  revert h2
  decide

/-- C3 (amended): an `acquire` is granted only if both the rolled hourly
and daily remaining counts are positive, a grant decrements both counters
atomically, and over any time-ordered call trace the grants within each
wall-clock hour window never exceed `max_calls_per_hour` and within each
wall-clock day window never exceed `max_calls_per_day` (the rolling-window
form of the bound is refuted by `rateLimiter_rolling_counterexample`). -/
theorem rateLimiter_spec :
    (∀ (cfg : LimiterConfig) (now : Nat) (st : RateLimiterState),
      ((acquire cfg now st).2 = true ↔
        0 < (rollover cfg now st).hourRemaining ∧
          0 < (rollover cfg now st).dayRemaining) ∧
      ((acquire cfg now st).2 = true →
        (acquire cfg now st).1.hourRemaining =
            (rollover cfg now st).hourRemaining - 1 ∧
          (acquire cfg now st).1.dayRemaining =
            (rollover cfg now st).dayRemaining - 1)) ∧
    (∀ (cfg : LimiterConfig) (ts : List Nat), List.Pairwise (· ≤ ·) ts →
      (∀ idx, grantsInWindow 3600 idx
        (runLimiter cfg (initLimiter cfg) ts).2 ≤ cfg.maxCallsPerHour) ∧
      (∀ idx, grantsInWindow 86400 idx
        (runLimiter cfg (initLimiter cfg) ts).2 ≤ cfg.maxCallsPerDay)) := by
  constructor
  · intro cfg now st
    constructor
    · rcases acquire_cases cfg now st with ⟨heq, hp, hq⟩ | ⟨heq, hn⟩
      · rw [heq]
        simpa using ⟨hp, hq⟩
      · rw [heq]
        simpa using hn
    · intro hgr
      rcases acquire_cases cfg now st with ⟨heq, _, _⟩ | ⟨heq, _⟩
      · rw [heq]
        exact ⟨rfl, rfl⟩
      · rw [heq] at hgr
        simp at hgr
  · intro cfg ts hpw
    obtain ⟨_, i1, i2, i3, i4⟩ := runLimiter_window_bound cfg ts
      (initLimiter cfg) hpw (fun t _ => Nat.zero_le _)
      (fun t _ => Nat.zero_le _) (le_refl _) (le_refl _)
    constructor
    · intro idx
      by_cases hidx : idx = (initLimiter cfg).hourWindowStart
      · exact hidx ▸ i2
      · exact i1 idx hidx
    · intro idx
      by_cases hidx : idx = (initLimiter cfg).dayWindowStart
      · exact hidx ▸ i4
      · exact i3 idx hidx

/-- Closed witness for `rateLimiter_spec`: the wall-clock hour bound
evaluated on the concrete two-call trace, with the order hypothesis
discharged. -/
theorem rateLimiter_spec_witness :
    grantsInWindow 3600 0
        (runLimiter ⟨1, 10⟩ (initLimiter ⟨1, 10⟩) [3599, 3600]).2 ≤
      (LimiterConfig.mk 1 10).maxCallsPerHour :=
  (rateLimiter_spec.2 ⟨1, 10⟩ [3599, 3600] (by decide)).1 0

/-- Helper for C9: a nonempty list of track ranges has an element with the
largest start time. -/
theorem exists_max_tstart (l : List TrackRange) (h : l ≠ []) :
    ∃ m ∈ l, ∀ x ∈ l, x.tstart ≤ m.tstart := by
  induction l with
  | nil => exact absurd rfl h
  | cons a l ih =>
    cases l with
    | nil =>
      refine ⟨a, List.mem_cons_self _ _, ?_⟩
      intro x hx
      simp only [List.mem_singleton] at hx
      exact hx ▸ le_refl _
    | cons b l2 =>
      obtain ⟨m, hm, hmax⟩ := ih (by simp)
      by_cases hc : a.tstart ≤ m.tstart
      · refine ⟨m, List.mem_cons_of_mem _ hm, ?_⟩
        intro x hx
        rcases List.mem_cons.mp hx with hx | hx
        · exact hx ▸ hc
        · exact hmax x hx
      · refine ⟨a, List.mem_cons_self _ _, ?_⟩
        intro x hx
        rcases List.mem_cons.mp hx with hx | hx
        · exact hx ▸ le_refl _
        · exact le_trans (hmax x hx) (le_of_not_le hc)

/-- Helper for C9: every element is bounded by the fold of `max`. -/
theorem le_foldr_max (l : List Nat) (x : Nat) (hx : x ∈ l) :
    x ≤ l.foldr max 0 := by
  induction l with
  | nil => simp at hx
  | cons a l ih =>
    rcases List.mem_cons.mp hx with h | h
    · exact h ▸ le_max_left _ _
    · exact le_trans (ih h) (le_max_right _ _)

/-- Helper for C9: the fold of `max` over a nonempty list is attained. -/
theorem foldr_max_mem (l : List Nat) (h : l ≠ []) : l.foldr max 0 ∈ l := by
  induction l with
  | nil => exact absurd rfl h
  | cons a l ih =>
    cases l with
    | nil => simp
    | cons b l2 =>
      rcases max_choice a ((b :: l2).foldr max 0) with hm | hm
      · rw [List.foldr_cons, hm]
        exact List.mem_cons_self _ _
      · rw [List.foldr_cons, hm]
        exact List.mem_cons_of_mem _ (ih (by simp))

/-- Helper for C9: the instant count at any time is bounded by the count at
the latest start among the tracks containing that time, which
`maxSimultaneousTracks` covers. -/
theorem countActiveAt_le_max (tracks : List TrackRange) (t : Nat) :
    countActiveAt tracks t ≤ maxSimultaneousTracks tracks := by
  by_cases hz : countActiveAt tracks t = 0
  · rw [hz]
    exact Nat.zero_le _
  · have hpos : 0 < countActiveAt tracks t := Nat.pos_of_ne_zero hz
    have hex : ∃ r ∈ tracks, containsAt r t :=
      List.countP_pos_iff.mp hpos
    have hSne : tracks.filter (fun r => containsAt r t) ≠ [] := by
      obtain ⟨r, hr, hrt⟩ := hex
      intro hnil
      have hmem : r ∈ tracks.filter (fun r => containsAt r t) :=
        List.mem_filter.mpr ⟨hr, hrt⟩
      rw [hnil] at hmem
      simp at hmem
    obtain ⟨m, hmS, hmax⟩ :=
      exists_max_tstart (tracks.filter (fun r => containsAt r t)) hSne
    have hmtracks : m ∈ tracks := (List.mem_filter.mp hmS).1
    have hmcont : m.tstart ≤ t ∧ t ≤ m.tend := by
      have := (List.mem_filter.mp hmS).2
      simpa [containsAt] using this
    have himp : ∀ r ∈ tracks, containsAt r t = true →
        containsAt r m.tstart = true := by
      intro r hr hrt
      have hrS : r ∈ tracks.filter (fun r => containsAt r t) :=
        List.mem_filter.mpr ⟨hr, hrt⟩
      have h1 : r.tstart ≤ m.tstart := hmax r hrS
      have h3 : t ≤ r.tend := by
        have := (List.mem_filter.mp hrS).2
        exact (by simpa [containsAt] using this : r.tstart ≤ t ∧ t ≤ r.tend).2
      simp only [containsAt, decide_eq_true_eq]
      exact ⟨h1, le_trans hmcont.1 h3⟩
    have hcount : countActiveAt tracks t ≤ countActiveAt tracks m.tstart :=
      List.countP_mono_left himp
    have hmem : countActiveAt tracks m.tstart ∈
        tracks.map (fun r => countActiveAt tracks r.tstart) :=
      List.mem_map.mpr ⟨m, hmtracks, rfl⟩
    exact le_trans hcount (le_foldr_max _ _ hmem)

/-- C9: `max_simultaneous_tracks` equals the maximum over all instants of
the number of Tracks whose time ranges contain that instant (it bounds
every instant and is attained at one); Tracks at t=1-5 and t=3-8 give 2
(attained during [3,5], 1 at the edges); a Session with zero Tracks and
zero audio Detections still yields a Visit with an empty detections list;
and the Visit's `end_time` is the later of the last Frame timestamp and
the last AudioChunk timestamp. -/
theorem visitAggregator_spec :
    (∀ (tracks : List TrackRange) (t : Nat),
      countActiveAt tracks t ≤ maxSimultaneousTracks tracks) ∧
    (∀ tracks : List TrackRange, tracks ≠ [] →
      ∃ t, countActiveAt tracks t = maxSimultaneousTracks tracks) ∧
    maxSimultaneousTracks [⟨1, 5⟩, ⟨3, 8⟩] = 2 ∧
    countActiveAt [⟨1, 5⟩, ⟨3, 8⟩] 3 = 2 ∧
    countActiveAt [⟨1, 5⟩, ⟨3, 8⟩] 5 = 2 ∧
    countActiveAt [⟨1, 5⟩, ⟨3, 8⟩] 2 = 1 ∧
    countActiveAt [⟨1, 5⟩, ⟨3, 8⟩] 8 = 1 ∧
    (∀ st f a : Nat, (aggregateVisit st f a [] []).detections = []) ∧
    (∀ (st f a : Nat) (tracks : List (TrackRange × Detection))
      (audioDets : List Detection),
      (aggregateVisit st f a tracks audioDets).endTime = max f a ∧
      (aggregateVisit st f a tracks audioDets).detections =
        tracks.map Prod.snd ++ audioDets) := by
  refine ⟨countActiveAt_le_max, ?_, by decide, by decide, by decide,
    by decide, by decide, fun _ _ _ => rfl, fun _ _ _ _ _ => ⟨rfl, rfl⟩⟩
  intro tracks hne
  have hmapne : tracks.map (fun r => countActiveAt tracks r.tstart) ≠ [] := by
    cases tracks with
    | nil => exact absurd rfl hne
    | cons a l => simp
  have hmem := foldr_max_mem _ hmapne
  obtain ⟨r, hr, hrEq⟩ := List.mem_map.mp hmem
  exact ⟨r.tstart, hrEq⟩

/-- Closed witness for `visitAggregator_spec`: attainment instantiated on
the Scenario D tracks. -/
theorem visitAggregator_spec_witness :
    ∃ t, countActiveAt [⟨1, 5⟩, ⟨3, 8⟩] t =
      maxSimultaneousTracks [⟨1, 5⟩, ⟨3, 8⟩] :=
  visitAggregator_spec.2.1 [⟨1, 5⟩, ⟨3, 8⟩] (by decide)

end BirdLense
